import Mathlib

/-!
Verification of the platigo password-hashing subsystem (package crypto).

The subsystem derives, encodes, decodes and verifies salted password hashes
in the argon2id encoded-hash text format
  $argon2id$v=19$m=<memory>,t=<iterations>,p=<parallelism>$<b64salt>$<b64key>
The implementation file of the crypto package is absent from the available
sources; only its test file is present.  Definitions below are therefore
modelled from the design specification, with the assertions of the test file
(TestHashFromPassword, TestComparePasswordAndHash, TestDecodeHash,
TestGenerateRandomBytes) pinning concrete behavior.  Bytes are modelled as
natural numbers below 256, Go unsigned integers as natural numbers, Go
multiple-return values with a trailing error as pairs/records of Options in
which none models nil.
-/

namespace Platigo

/-- The sentinel error values of the crypto package (spec error taxonomy):
errInvalidHash, errIncompatibleVersion, the propagated random-source read
error, and a base64 decoding error. -/
inductive CryptoErr where
  | invalidHash
  | incompatibleVersion
  | randomSource
  | base64Decoding
  deriving DecidableEq

/-- The params struct of the crypto package (as it appears in the test file):
memory (KB), iterations, parallelism, salt length (bytes), key length
(bytes). -/
structure Params where
  memory : Nat
  iterations : Nat
  parallelism : Nat
  saltLength : Nat
  keyLength : Nat
  deriving DecidableEq

/-- The supported argon2 version (argon2.Version, pinned to 19 by the test
vectors). -/
def argon2Version : Nat := 19

/-! ## Unpadded strict base64 (base64.RawStdEncoding.Strict) -/

/-- The standard base64 alphabet character at an index below 64. -/
def b64Char (i : Nat) : Char :=
  if i < 26 then Char.ofNat (65 + i)
  else if i < 52 then Char.ofNat (97 + (i - 26))
  else if i < 62 then Char.ofNat (48 + (i - 52))
  else if i = 62 then '+'
  else '/'

/-- Index of a character in the standard base64 alphabet, none for a
character outside the alphabet (including the padding character, which the
raw encoding does not accept). -/
def b64Index (c : Char) : Option Nat :=
  if 'A' ≤ c ∧ c ≤ 'Z' then some (c.toNat - 65)
  else if 'a' ≤ c ∧ c ≤ 'z' then some (c.toNat - 97 + 26)
  else if '0' ≤ c ∧ c ≤ '9' then some (c.toNat - 48 + 52)
  else if c = '+' then some 62
  else if c = '/' then some 63
  else none

/-- Modelled from the spec: base64.RawStdEncoding.EncodeToString (the Go
standard-library encoder used for the salt and key fields; its source is not
part of the repository).  Groups of three bytes become four alphabet
characters; a trailing group of one or two bytes becomes two or three
characters; no padding is emitted. -/
def b64EncodeChars : List Nat → List Char
  | [] => []
  | [a] => [b64Char (a / 4), b64Char (a % 4 * 16)]
  | [a, b] => [b64Char (a / 4), b64Char (a % 4 * 16 + b / 16), b64Char (b % 16 * 4)]
  | a :: b :: c :: rest =>
      b64Char (a / 4) :: b64Char (a % 4 * 16 + b / 16) ::
        b64Char (b % 16 * 4 + c / 64) :: b64Char (c % 64) :: b64EncodeChars rest

/-- Alphabet indices of the base64 encoding of a byte list (proof helper:
b64EncodeChars factors through this list). -/
def b64EncodeIdx : List Nat → List Nat
  | [] => []
  | [a] => [a / 4, a % 4 * 16]
  | [a, b] => [a / 4, a % 4 * 16 + b / 16, b % 16 * 4]
  | a :: b :: c :: rest =>
      a / 4 :: (a % 4 * 16 + b / 16) :: (b % 16 * 4 + c / 64) :: c % 64 :: b64EncodeIdx rest

/-- Strict unpadded base64 group decoding over alphabet indices: four
characters give three bytes; a final group of two or three characters gives
one or two bytes provided the unused trailing bits are zero (strict mode); a
final group of a single character is malformed. -/
def b64DecodeGroups : List Nat → Option (List Nat)
  | [] => some []
  | [_] => none
  | [w, x] => if x % 16 = 0 then some [w * 4 + x / 16] else none
  | [w, x, y] => if y % 4 = 0 then some [w * 4 + x / 16, x % 16 * 16 + y / 4] else none
  | w :: x :: y :: z :: rest =>
      match b64DecodeGroups rest with
      | none => none
      | some bs => some ((w * 4 + x / 16) :: (x % 16 * 16 + y / 4) :: (y % 4 * 64 + z) :: bs)

/-- The Go base64 decoder ignores carriage returns and line feeds. -/
def stripCRLF : List Char → List Char
  | [] => []
  | c :: cs => if c = '\r' ∨ c = '\n' then stripCRLF cs else c :: stripCRLF cs

/-- Alphabet lookup of every character, failing on a foreign character. -/
def b64Indices : List Char → Option (List Nat)
  | [] => some []
  | c :: cs =>
      match b64Index c, b64Indices cs with
      | some i, some is => some (i :: is)
      | _, _ => none

/-- Modelled from the spec: base64.RawStdEncoding.Strict().DecodeString (the
decoder of the fifth and sixth segments; the Go standard-library source is
not part of the repository): ignore CR/LF, require every other character to
belong to the standard alphabet, decode unpadded groups with strict
trailing-bit checking. -/
def b64Decode (cs : List Char) : Option (List Nat) :=
  match b64Indices (stripCRLF cs) with
  | none => none
  | some is => b64DecodeGroups is

/-! ## Decimal formatting and scanning (the %d format and scan verbs) -/

/-- Decimal digit character for a value below ten. -/
def digitChar (d : Nat) : Char := Char.ofNat (48 + d)

/-- Decimal representation of a natural number, most significant digit
first, computed with fuel; fuel n + 1 always suffices. -/
def natToCharsAux : Nat → Nat → List Char
  | 0, _ => []
  | f + 1, n =>
      if n < 10 then [digitChar n]
      else natToCharsAux f (n / 10) ++ [digitChar (n % 10)]

/-- The output of the %d formatting verb for a natural number. -/
def natToChars (n : Nat) : List Char := natToCharsAux (n + 1) n

/-- Greedy decimal scan: consume leading digits into the accumulator and
return the remaining input. -/
def scanNatAux : List Char → Nat → Nat × List Char
  | [], acc => (acc, [])
  | c :: cs, acc =>
      if c.isDigit then scanNatAux cs (acc * 10 + (c.toNat - 48)) else (acc, c :: cs)

/-- The %d scanning verb over naturals: at least one leading digit, consumed
greedily; the remaining input is returned for the rest of the format. -/
def scanNat : List Char → Option (Nat × List Char)
  | [] => none
  | c :: cs => if c.isDigit then some (scanNatAux cs (c.toNat - 48)) else none

/-- Strip an expected literal prefix (the literal characters of an Sscanf
format), failing on a mismatch. -/
def stripPre : List Char → List Char → Option (List Char)
  | [], cs => some cs
  | p :: ps, c :: cs => if c = p then stripPre ps cs else none
  | _ :: _, [] => none

/-- Modelled from the spec: parsing the version segment (fmt.Sscanf with
format v=%d in the absent implementation file): the literal prefix, then a
decimal integer; input after the scanned integer is ignored, as Sscanf
ignores input past the format. -/
def parseVersion (cs : List Char) : Option Nat :=
  match stripPre ['v', '='] cs with
  | none => none
  | some rest =>
      match scanNat rest with
      | none => none
      | some (v, _) => some v

/-- Modelled from the spec: parsing the cost segment (fmt.Sscanf with format
m=%d,t=%d,p=%d in the absent implementation file): three decimal sub-fields
behind literal prefixes; input after the last integer is ignored. -/
def parseCost (cs : List Char) : Option (Nat × Nat × Nat) :=
  match stripPre ['m', '='] cs with
  | none => none
  | some r0 =>
      match scanNat r0 with
      | none => none
      | some (m, r1) =>
          match stripPre [',', 't', '='] r1 with
          | none => none
          | some r2 =>
              match scanNat r2 with
              | none => none
              | some (t, r3) =>
                  match stripPre [',', 'p', '='] r3 with
                  | none => none
                  | some r4 =>
                      match scanNat r4 with
                      | none => none
                      | some (p, _) => some (m, t, p)

/-! ## The codec -/

/-- strings.Split on the dollar delimiter (a single-character separator
splits at every occurrence; a string with no separator yields one
segment). -/
def splitOnDollar : List Char → List (List Char)
  | [] => [[]]
  | c :: rest =>
      match splitOnDollar rest with
      | [] => [[]]
      | g :: gs => if c = '$' then [] :: g :: gs else (c :: g) :: gs

/-- The algorithm tag of the second segment. -/
def algTag : List Char := ['a', 'r', 'g', 'o', 'n', '2', 'i', 'd']

/-- The version segment emitted by the encoder. -/
def verChars : List Char := 'v' :: '=' :: natToChars argon2Version

/-- The cost segment emitted by the encoder: comma-joined memory,
iterations, parallelism. -/
def costChars (q : Params) : List Char :=
  'm' :: '=' :: (natToChars q.memory ++
    (',' :: 't' :: '=' :: (natToChars q.iterations ++
      (',' :: 'p' :: '=' :: natToChars q.parallelism))))

/-- Modelled from the spec: the Codec encoder (the fmt.Sprintf call of
HashFromPassword, whose implementation file is absent): the dollar-delimited
six-field structure with an empty leading field, the algorithm tag, the
version tag, the cost triple, and the unpadded-base64 salt and key. -/
def encodeHash (q : Params) (salt key : List Nat) : String :=
  String.mk ('$' :: (algTag ++ ('$' :: (verChars ++ ('$' :: (costChars q ++
    ('$' :: (b64EncodeChars salt ++ ('$' :: b64EncodeChars key)))))))))

/-- The four return values of decodeHash: the pointer and slice results are
Options (none models a nil return), as is the error. -/
structure DecodeResult where
  p : Option Params
  salt : Option (List Nat)
  key : Option (List Nat)
  err : Option CryptoErr
  deriving DecidableEq

/-- Modelled from the spec: the segment processing of decodeHash after the
split (behavior follows spec section 4.3 and the assertions of
TestDecodeHash): require exactly six segments, parse and check the version,
parse the cost triple, base64-decode salt and key, and derive the
saltLength/keyLength fields from the decoded byte lengths.  Every failure
returns nil results together with the error. -/
def decodeSegs : List (List Char) → DecodeResult
  | [_, _, vSeg, costSeg, saltSeg, keySeg] =>
      match parseVersion vSeg with
      | none => ⟨none, none, none, some .invalidHash⟩
      | some ver =>
          if ver ≠ argon2Version then ⟨none, none, none, some .incompatibleVersion⟩
          else
            match parseCost costSeg with
            | none => ⟨none, none, none, some .invalidHash⟩
            | some (m, t, par) =>
                match b64Decode saltSeg with
                | none => ⟨none, none, none, some .base64Decoding⟩
                | some salt =>
                    match b64Decode keySeg with
                    | none => ⟨none, none, none, some .base64Decoding⟩
                    | some key =>
                        ⟨some ⟨m, t, par, salt.length, key.length⟩, some salt, some key, none⟩
  | _ => ⟨none, none, none, some .invalidHash⟩

/-- Modelled from the spec: decodeHash (implementation file absent): split
the encoded hash on the dollar delimiter and process the segments. -/
def decodeHash (s : String) : DecodeResult :=
  decodeSegs (splitOnDollar s.data)

/-! ## Hasher and Verifier -/

/-- The type of the key-derivation function argon2.IDKey (an external
library function): password, salt, iterations, memory, parallelism, key
length, in the argument order of the Go call. -/
def KDF : Type := String → List Nat → Nat → Nat → Nat → Nat → List Nat

/-- The type of the secure random source behind generateRandomBytes,
injectable as the spec (section 9) directs for testing: the requested length
to the generated bytes, none when the entropy read fails. -/
def RandomSource : Type := Nat → Option (List Nat)

/-- Modelled from the spec: the fixed parameter set used by
HashFromPassword.  Memory 65536, iterations 3, parallelism 2 and the 32-byte
key are pinned by TestHashFromPassword; salt length 16 and key length 32 are
the recommended defaults of spec section 4.2. -/
def defaultParams : Params := ⟨65536, 3, 2, 16, 32⟩

/-- Modelled from the spec: the two-argument Hasher contract of spec section
4.2, hash(password, params): generate a salt of params.saltLength bytes,
derive the key, encode.  Returns the Go pair (encoded string, error). -/
def hashWithParams (kdf : KDF) (rs : RandomSource) (password : String) (q : Params) :
    String × Option CryptoErr :=
  match rs q.saltLength with
  | none => ("", some .randomSource)
  | some salt =>
      (encodeHash q salt (kdf password salt q.iterations q.memory q.parallelism q.keyLength),
        none)

/-- Modelled from the spec: HashFromPassword (implementation file absent;
TestHashFromPassword pins its single password argument and its exact
output): generate the salt, derive the key with the fixed default parameter
set, encode.  The only failure is propagation of the random-source error,
returned with the empty string. -/
def HashFromPassword (kdf : KDF) (rs : RandomSource) (password : String) :
    String × Option CryptoErr :=
  match rs defaultParams.saltLength with
  | none => ("", some .randomSource)
  | some salt =>
      (encodeHash defaultParams salt
        (kdf password salt defaultParams.iterations defaultParams.memory
          defaultParams.parallelism defaultParams.keyLength),
        none)

/-- Modelled from the spec: the loop of subtle.ConstantTimeCompare (an
external library function, described by the spec glossary as the
constant-time comparison), instrumented with a step count: every byte
position is visited exactly once, or-accumulating the xor of the byte pair,
with no early exit.  Returns (accumulator, loop iterations executed). -/
def ctLoop : List Nat → List Nat → Nat → Nat × Nat
  | [], _, v => (v, 0)
  | _ :: _, [], v => (v, 0)
  | a :: xs, b :: ys, v =>
      match ctLoop xs ys (v ||| ((a % 256) ^^^ (b % 256))) with
      | (r, s) => (r, s + 1)

/-- subtle.ConstantTimeCompare instrumented with its step count: result 1
when the equal-length inputs agree byte for byte, 0 otherwise; length
mismatch returns 0 without entering the loop. -/
def constantTimeCompareInstr (x y : List Nat) : Nat × Nat :=
  if x.length = y.length then
    match ctLoop x y 0 with
    | (v, s) => (if v = 0 then 1 else 0, s)
  else (0, 0)

/-- The result of subtle.ConstantTimeCompare. -/
def constantTimeCompare (x y : List Nat) : Nat := (constantTimeCompareInstr x y).1

/-- Modelled from the spec: ComparePasswordAndHash (implementation file
absent; behavior follows spec section 4.4 and TestComparePasswordAndHash):
decode the stored hash, propagate decode errors with a false match,
re-derive the candidate key with the decoded parameters (the key length
taken from the decoded expected key), and compare in constant time. -/
def ComparePasswordAndHash (kdf : KDF) (password encoded : String) :
    Bool × Option CryptoErr :=
  match decodeHash encoded with
  | ⟨some q, some salt, some key, none⟩ =>
      (constantTimeCompare key
        (kdf password salt q.iterations q.memory q.parallelism q.keyLength) == 1, none)
  | ⟨_, _, _, some e⟩ => (false, some e)
  | _ => (false, none)

/-! ## Concrete test doubles (the mocked salt, the known-vector key) -/

/-- The bytes of the string mockedsalt, the deterministic salt the test file
substitutes for generateRandomBytes. -/
def mockedSaltBytes : List Nat := [109, 111, 99, 107, 101, 100, 115, 97, 108, 116]

/-- Modelled from the spec: the known-vector derived key, the 32 bytes whose
unpadded base64 form the spec pins as
4fziyesgS8X1eccXj3E5WacLsqUeX28HHqxprFZHlY8 (the argon2id computation
itself is external to the repository). -/
def knownVectorKey : List Nat :=
  [225, 252, 226, 201, 235, 32, 75, 197, 245, 121, 199, 23, 143, 113, 57, 89,
   167, 11, 178, 165, 30, 95, 111, 7, 30, 172, 105, 172, 86, 71, 149, 143]

/-- A key-derivation double returning the known-vector key on every input. -/
def vectorKdf : KDF := fun _ _ _ _ _ _ => knownVectorKey

/-- A random-source double returning the mocked salt on every request, as
the patched generateRandomBytes of the test file does. -/
def mockSaltSource : RandomSource := fun _ => some mockedSaltBytes

/-- A key-derivation double honoring the requested key length, as the real
argon2.IDKey does. -/
def lengthKdf : KDF := fun _ _ _ _ _ n => List.replicate n 7

/-! ## Base64 round-trip lemmas -/

/-- Alphabet indices below 64 look up to themselves, and the alphabet
contains neither the delimiter nor CR/LF. -/
theorem b64Char_spec : ∀ i : Fin 64,
    b64Index (b64Char i.1) = some i.1 ∧
      b64Char i.1 ≠ '$' ∧ b64Char i.1 ≠ '\r' ∧ b64Char i.1 ≠ '\n' := by decide

/-- The encoder is the alphabet map of the index list. -/
theorem b64EncodeChars_eq_map : ∀ bs : List Nat,
    b64EncodeChars bs = (b64EncodeIdx bs).map b64Char
  | [] => rfl
  | [_] => rfl
  | [_, _] => rfl
  | a :: b :: c :: rest => by
      simp only [b64EncodeChars, b64EncodeIdx, List.map_cons]
      rw [b64EncodeChars_eq_map rest]

/-- Indices produced from bytes are alphabet indices. -/
theorem b64EncodeIdx_lt : ∀ bs : List Nat, (∀ b ∈ bs, b < 256) →
    ∀ i ∈ b64EncodeIdx bs, i < 64
  | [], _, i, hi => by simp [b64EncodeIdx] at hi
  | [a], h, i, hi => by
      have ha := h a (by simp)
      simp only [b64EncodeIdx, List.mem_cons, List.mem_singleton] at hi
      rcases hi with rfl | rfl | hi
      · omega
      · omega
      · simp at hi
  | [a, b], h, i, hi => by
      have ha := h a (by simp)
      have hb := h b (by simp)
      simp only [b64EncodeIdx, List.mem_cons, List.mem_singleton] at hi
      rcases hi with rfl | rfl | rfl | hi
      · omega
      · omega
      · omega
      · simp at hi
  | a :: b :: c :: rest, h, i, hi => by
      have ha := h a (by simp)
      have hb := h b (by simp)
      have hc := h c (by simp)
      simp only [b64EncodeIdx, List.mem_cons] at hi
      rcases hi with rfl | rfl | rfl | rfl | hi
      · omega
      · omega
      · omega
      · omega
      · exact b64EncodeIdx_lt rest (fun x hx => h x (by simp [hx])) i hi

/-- CR/LF stripping keeps alphabet characters. -/
theorem stripCRLF_map_b64Char (is : List Nat) (h : ∀ i ∈ is, i < 64) :
    stripCRLF (is.map b64Char) = is.map b64Char := by
  induction is with
  | nil => rfl
  | cons i is ih =>
      have hi := b64Char_spec ⟨i, h i (by simp)⟩
      simp only [List.map_cons, stripCRLF]
      rw [if_neg (by push_neg; exact ⟨hi.2.2.1, hi.2.2.2⟩),
        ih (fun j hj => h j (by simp [hj]))]

/-- Alphabet lookup inverts the alphabet map. -/
theorem b64Indices_map_b64Char (is : List Nat) (h : ∀ i ∈ is, i < 64) :
    b64Indices (is.map b64Char) = some is := by
  induction is with
  | nil => rfl
  | cons i is ih =>
      have hi := (b64Char_spec ⟨i, h i (by simp)⟩).1
      simp only [List.map_cons, b64Indices]
      rw [hi, ih (fun j hj => h j (by simp [hj]))]

/-- Group decoding inverts group encoding on genuine bytes. -/
theorem b64DecodeGroups_encodeIdx : ∀ bs : List Nat, (∀ b ∈ bs, b < 256) →
    b64DecodeGroups (b64EncodeIdx bs) = some bs
  | [], _ => rfl
  | [a], h => by
      have ha := h a (by simp)
      simp only [b64EncodeIdx, b64DecodeGroups]
      rw [if_pos (by omega)]
      simp only [Option.some.injEq, List.cons.injEq, and_true]
      omega
  | [a, b], h => by
      have ha := h a (by simp)
      have hb := h b (by simp)
      simp only [b64EncodeIdx, b64DecodeGroups]
      rw [if_pos (by omega)]
      simp only [Option.some.injEq, List.cons.injEq, and_true]
      constructor
      · omega
      · omega
  | a :: b :: c :: rest, h => by
      have ha := h a (by simp)
      have hb := h b (by simp)
      have hc := h c (by simp)
      simp only [b64EncodeIdx, b64DecodeGroups]
      rw [b64DecodeGroups_encodeIdx rest (fun x hx => h x (by simp [hx]))]
      have e1 : a / 4 * 4 + (a % 4 * 16 + b / 16) / 16 = a := by omega
      have e2 : (a % 4 * 16 + b / 16) % 16 * 16 + (b % 16 * 4 + c / 64) / 4 = b := by omega
      have e3 : (b % 16 * 4 + c / 64) % 4 * 64 + c % 64 = c := by omega
      rw [e1, e2, e3]

/-- Strict unpadded base64 decoding inverts encoding on byte lists. -/
theorem b64_roundtrip (bs : List Nat) (h : ∀ b ∈ bs, b < 256) :
    b64Decode (b64EncodeChars bs) = some bs := by
  have hlt := b64EncodeIdx_lt bs h
  rw [b64Decode, b64EncodeChars_eq_map, stripCRLF_map_b64Char _ hlt,
    b64Indices_map_b64Char _ hlt]
  exact b64DecodeGroups_encodeIdx bs h

/-- Encoded base64 never contains the delimiter. -/
theorem b64EncodeChars_ne_dollar (bs : List Nat) (h : ∀ b ∈ bs, b < 256) :
    ∀ c ∈ b64EncodeChars bs, c ≠ '$' := by
  intro c hc
  rw [b64EncodeChars_eq_map] at hc
  obtain ⟨i, hi, rfl⟩ := List.mem_map.1 hc
  exact (b64Char_spec ⟨i, b64EncodeIdx_lt bs h i hi⟩).2.1

/-! ## Decimal formatting and scanning lemmas -/

/-- Digit characters are digits with the expected code points. -/
theorem digit_facts : ∀ d : Fin 10,
    (digitChar d.1).isDigit = true ∧ (digitChar d.1).toNat = 48 + d.1 := by decide

/-- digitChar is a digit character, stated over naturals. -/
theorem digitChar_isDigit {d : Nat} (h : d < 10) : (digitChar d).isDigit = true :=
  (digit_facts ⟨d, h⟩).1

/-- The code point of digitChar, stated over naturals. -/
theorem digitChar_toNat {d : Nat} (h : d < 10) : (digitChar d).toNat = 48 + d :=
  (digit_facts ⟨d, h⟩).2

/-- Every character of a formatted natural is a digit. -/
theorem natToCharsAux_digits : ∀ (f n : Nat), ∀ c ∈ natToCharsAux f n, c.isDigit = true := by
  intro f
  induction f with
  | zero => intro n c hc; simp [natToCharsAux] at hc
  | succ f ih =>
      intro n c hc
      by_cases h : n < 10
      · simp only [natToCharsAux, if_pos h, List.mem_singleton] at hc
        subst hc
        exact digitChar_isDigit h
      · simp only [natToCharsAux, if_neg h, List.mem_append, List.mem_singleton] at hc
        rcases hc with hc | rfl
        · exact ih (n / 10) c hc
        · exact digitChar_isDigit (Nat.mod_lt n (by omega))

/-- A formatted natural is never empty (given positive fuel). -/
theorem natToCharsAux_ne_nil (f n : Nat) (hf : 0 < f) : natToCharsAux f n ≠ [] := by
  cases f with
  | zero => omega
  | succ f =>
      by_cases h : n < 10
      · simp [natToCharsAux, if_pos h]
      · simp [natToCharsAux, if_neg h]

/-- Folding the decimal digits of a formatted natural recovers it. -/
theorem foldl_natToCharsAux : ∀ (f n : Nat), n < f →
    (natToCharsAux f n).foldl (fun a c => a * 10 + (c.toNat - 48)) 0 = n := by
  intro f
  induction f with
  | zero => omega
  | succ f ih =>
      intro n hn
      by_cases h : n < 10
      · simp only [natToCharsAux, if_pos h, List.foldl_cons, List.foldl_nil]
        rw [digitChar_toNat h]
        omega
      · simp only [natToCharsAux, if_neg h, List.foldl_append, List.foldl_cons,
          List.foldl_nil]
        rw [ih (n / 10) (by omega), digitChar_toNat (Nat.mod_lt n (by omega))]
        omega

/-- The greedy digit scan consumes exactly a digit block before a non-digit
boundary. -/
theorem scanNatAux_digits : ∀ (ds rest : List Char) (acc : Nat),
    (∀ c ∈ ds, c.isDigit = true) → (∀ c ∈ rest.take 1, c.isDigit = false) →
    scanNatAux (ds ++ rest) acc =
      (ds.foldl (fun a c => a * 10 + (c.toNat - 48)) acc, rest)
  | [], rest, acc, _, hr => by
      cases rest with
      | nil => rfl
      | cons c cs =>
          simp only [List.nil_append, scanNatAux, List.foldl_nil]
          rw [if_neg (by simp [hr c (by simp)])]
  | d :: ds, rest, acc, hd, hr => by
      simp only [List.cons_append, scanNatAux, List.foldl_cons]
      rw [if_pos (hd d (by simp))]
      exact scanNatAux_digits ds rest _ (fun c hc => hd c (by simp [hc])) hr

/-- The %d scanning verb reads back a formatted natural and leaves the
remaining input untouched. -/
theorem scanNat_natToChars (n : Nat) (rest : List Char)
    (hr : ∀ c ∈ rest.take 1, c.isDigit = false) :
    scanNat (natToChars n ++ rest) = some (n, rest) := by
  have hfold := foldl_natToCharsAux (n + 1) n (by omega)
  cases h : natToCharsAux (n + 1) n with
  | nil => exact absurd h (natToCharsAux_ne_nil (n + 1) n (by omega))
  | cons d ds =>
      have hd : ∀ c ∈ d :: ds, c.isDigit = true := by
        rw [← h]; exact natToCharsAux_digits (n + 1) n
      show scanNat (natToCharsAux (n + 1) n ++ rest) = some (n, rest)
      rw [h] at hfold ⊢
      simp only [List.cons_append, scanNat]
      rw [if_pos (hd d (by simp)),
        scanNatAux_digits ds rest _ (fun c hc => hd c (by simp [hc])) hr]
      simp only [List.foldl_cons, Nat.zero_mul, Nat.zero_add] at hfold
      rw [hfold]

/-! ## Splitting lemmas -/

/-- Splitting always yields at least one segment. -/
theorem splitOnDollar_ne_nil : ∀ cs : List Char, splitOnDollar cs ≠ []
  | [] => by simp [splitOnDollar]
  | c :: rest => by
      simp only [splitOnDollar]
      cases h : splitOnDollar rest with
      | nil => simp
      | cons g gs =>
          by_cases hc : c = '$'
          · simp [hc]
          · simp [hc]

/-- A leading delimiter contributes an empty leading segment. -/
theorem splitOnDollar_cons_dollar (cs : List Char) :
    splitOnDollar ('$' :: cs) = [] :: splitOnDollar cs := by
  simp only [splitOnDollar]
  cases h : splitOnDollar cs with
  | nil => exact absurd h (splitOnDollar_ne_nil cs)
  | cons g gs => simp

/-- A delimiter-free string is a single segment. -/
theorem splitOnDollar_no_dollar : ∀ cs : List Char, (∀ c ∈ cs, c ≠ '$') →
    splitOnDollar cs = [cs]
  | [], _ => rfl
  | c :: rest, h => by
      simp only [splitOnDollar,
        splitOnDollar_no_dollar rest (fun x hx => h x (by simp [hx]))]
      rw [if_neg (h c (by simp))]

/-- Splitting peels a delimiter-free prefix before a delimiter. -/
theorem splitOnDollar_append : ∀ (xs ys : List Char), (∀ c ∈ xs, c ≠ '$') →
    splitOnDollar (xs ++ '$' :: ys) = xs :: splitOnDollar ys
  | [], ys, _ => by
      simpa using splitOnDollar_cons_dollar ys
  | x :: xs, ys, h => by
      simp only [List.cons_append, splitOnDollar, List.append_eq,
        splitOnDollar_append xs ys (fun c hc => h c (by simp [hc]))]
      rw [if_neg (h x (by simp))]

/-! ## The segments of an encoded hash -/

/-- The algorithm tag contains no delimiter. -/
theorem algTag_no_dollar : ∀ c ∈ algTag, c ≠ '$' := by decide

/-- The version segment contains no delimiter. -/
theorem verChars_no_dollar : ∀ c ∈ verChars, c ≠ '$' := by decide

/-- Digits are not the delimiter. -/
theorem digit_ne_dollar (c : Char) (h : c.isDigit = true) : c ≠ '$' := by
  intro hc
  subst hc
  exact absurd h (by decide)

/-- Every character of a formatted natural is a digit. -/
theorem natToChars_digits (n : Nat) : ∀ c ∈ natToChars n, c.isDigit = true :=
  natToCharsAux_digits (n + 1) n

/-- The cost segment contains no delimiter. -/
theorem costChars_no_dollar (q : Params) : ∀ c ∈ costChars q, c ≠ '$' := by
  intro c hc
  simp only [costChars, List.mem_cons, List.mem_append] at hc
  rcases hc with rfl | rfl | hc | rfl | rfl | rfl | hc | rfl | rfl | rfl | hc
  · decide
  · decide
  · exact digit_ne_dollar c (natToChars_digits q.memory c hc)
  · decide
  · decide
  · decide
  · exact digit_ne_dollar c (natToChars_digits q.iterations c hc)
  · decide
  · decide
  · decide
  · exact digit_ne_dollar c (natToChars_digits q.parallelism c hc)

/-- The encoded hash splits into exactly its six fields. -/
theorem split_encodeHash (q : Params) (salt key : List Nat)
    (hs : ∀ b ∈ salt, b < 256) (hk : ∀ b ∈ key, b < 256) :
    splitOnDollar (encodeHash q salt key).data =
      [[], algTag, verChars, costChars q, b64EncodeChars salt, b64EncodeChars key] := by
  show splitOnDollar ('$' :: (algTag ++ ('$' :: (verChars ++ ('$' :: (costChars q ++
    ('$' :: (b64EncodeChars salt ++ ('$' :: b64EncodeChars key))))))))) = _
  rw [splitOnDollar_cons_dollar, splitOnDollar_append _ _ algTag_no_dollar,
    splitOnDollar_append _ _ verChars_no_dollar,
    splitOnDollar_append _ _ (costChars_no_dollar q),
    splitOnDollar_append _ _ (b64EncodeChars_ne_dollar salt hs),
    splitOnDollar_no_dollar _ (b64EncodeChars_ne_dollar key hk)]

/-! ## Parsing the emitted segments -/

/-- Literal-prefix stripping succeeds on its own prefix. -/
theorem stripPre_self : ∀ (ps cs : List Char), stripPre ps (ps ++ cs) = some cs
  | [], _ => rfl
  | p :: ps, cs => by
      simp only [List.cons_append, stripPre, if_pos rfl]
      exact stripPre_self ps cs

/-- The emitted version segment parses back to the supported version. -/
theorem parseVersion_verChars : parseVersion verChars = some 19 := by decide

/-- A block starting with a known non-digit has no leading digit. -/
theorem noDigit_take1 {c : Char} (cs : List Char) (h : c.isDigit = false) :
    ∀ x ∈ (c :: cs).take 1, x.isDigit = false := by
  intro x hx
  simp only [List.take_succ_cons, List.take_zero, List.mem_singleton] at hx
  subst hx
  exact h

/-- The emitted cost segment parses back to the encoded cost triple. -/
theorem parseCost_emitted (m t p : Nat) :
    parseCost ('m' :: '=' :: (natToChars m ++ (',' :: 't' :: '=' :: (natToChars t ++
      (',' :: 'p' :: '=' :: natToChars p))))) = some (m, t, p) := by
  have h1 := stripPre_self ['m', '=']
    (natToChars m ++ (',' :: 't' :: '=' :: (natToChars t ++
      (',' :: 'p' :: '=' :: natToChars p))))
  have h2 := scanNat_natToChars m
    (',' :: 't' :: '=' :: (natToChars t ++ (',' :: 'p' :: '=' :: natToChars p)))
    (noDigit_take1 _ (by decide))
  have h3 := stripPre_self [',', 't', '=']
    (natToChars t ++ (',' :: 'p' :: '=' :: natToChars p))
  have h4 := scanNat_natToChars t (',' :: 'p' :: '=' :: natToChars p)
    (noDigit_take1 _ (by decide))
  have h5 := stripPre_self [',', 'p', '='] (natToChars p)
  have h6 := scanNat_natToChars p [] (by decide)
  simp only [List.cons_append, List.nil_append] at h1 h3 h5
  simp only [List.append_nil] at h6
  simp only [parseCost, h1, h2, h3, h4, h5, h6]

/-- The cost segment of the encoder parses back to the parameter triple. -/
theorem parseCost_costChars (q : Params) :
    parseCost (costChars q) = some (q.memory, q.iterations, q.parallelism) :=
  parseCost_emitted q.memory q.iterations q.parallelism

/-- Decoding inverts encoding: the cost triple is recovered exactly and the
length fields are the decoded byte lengths. -/
theorem decodeHash_encodeHash (q : Params) (salt key : List Nat)
    (hs : ∀ b ∈ salt, b < 256) (hk : ∀ b ∈ key, b < 256) :
    decodeHash (encodeHash q salt key) =
      ⟨some ⟨q.memory, q.iterations, q.parallelism, salt.length, key.length⟩,
        some salt, some key, none⟩ := by
  show decodeSegs (splitOnDollar (encodeHash q salt key).data) = _
  rw [split_encodeHash q salt key hs hk]
  simp only [decodeSegs, parseVersion_verChars, parseCost_costChars,
    b64_roundtrip salt hs, b64_roundtrip key hk, argon2Version]
  norm_num

/-- An encoded hash is never the empty string. -/
theorem encodeHash_ne_empty (q : Params) (salt key : List Nat) :
    encodeHash q salt key ≠ "" := by
  intro h
  have hd := congrArg String.data h
  simp [encodeHash] at hd

/-! ## Constant-time comparison lemmas -/

/-- The comparison loop leaves the accumulator unchanged on identical
inputs. -/
theorem ctLoop_self : ∀ (x : List Nat) (v : Nat), ctLoop x x v = (v, x.length)
  | [], _ => rfl
  | a :: xs, v => by
      have hx : v ||| ((a % 256) ^^^ (a % 256)) = v := by
        rw [Nat.xor_self]
        exact Nat.or_zero v
      simp only [ctLoop, hx, ctLoop_self xs v, List.length_cons]

/-- The comparison loop executes one iteration per shared byte position,
whatever the contents. -/
theorem ctLoop_steps : ∀ (x y : List Nat) (v : Nat),
    (ctLoop x y v).2 = min x.length y.length
  | [], y, _ => by simp [ctLoop]
  | _ :: _, [], _ => by simp [ctLoop]
  | a :: xs, b :: ys, v => by
      simp only [ctLoop, ctLoop_steps xs ys, List.length_cons]
      omega

/-- Comparing a key with itself reports equality. -/
theorem constantTimeCompare_self (x : List Nat) : constantTimeCompare x x = 1 := by
  simp [constantTimeCompare, constantTimeCompareInstr, ctLoop_self]

/-! ## Shape of decode results -/

/-- Every decode either fails with nil results and an error, or succeeds
with all three results present and no error. -/
theorem decodeSegs_shape (l : List (List Char)) :
    (∃ e, decodeSegs l = ⟨none, none, none, some e⟩) ∨
      (∃ q sa k, decodeSegs l = ⟨some q, some sa, some k, none⟩) := by
  rcases l with _ | ⟨a, _ | ⟨b, _ | ⟨v, _ | ⟨c, _ | ⟨sa, _ | ⟨k, _ | ⟨g, l⟩⟩⟩⟩⟩⟩⟩
  · exact Or.inl ⟨.invalidHash, rfl⟩
  · exact Or.inl ⟨.invalidHash, rfl⟩
  · exact Or.inl ⟨.invalidHash, rfl⟩
  · exact Or.inl ⟨.invalidHash, rfl⟩
  · exact Or.inl ⟨.invalidHash, rfl⟩
  · exact Or.inl ⟨.invalidHash, rfl⟩
  · cases hv : parseVersion v with
    | none => exact Or.inl ⟨.invalidHash, by simp [decodeSegs, hv]⟩
    | some ver =>
        by_cases hver : ver ≠ argon2Version
        · exact Or.inl ⟨.incompatibleVersion, by simp [decodeSegs, hv, if_pos hver]⟩
        · cases hc : parseCost c with
          | none => exact Or.inl ⟨.invalidHash, by simp [decodeSegs, hv, hver, hc]⟩
          | some mtp =>
              obtain ⟨m, t, par⟩ := mtp
              cases hsa : b64Decode sa with
              | none =>
                  exact Or.inl ⟨.base64Decoding, by simp [decodeSegs, hv, hver, hc, hsa]⟩
              | some saltB =>
                  cases hkk : b64Decode k with
                  | none =>
                      exact Or.inl
                        ⟨.base64Decoding, by simp [decodeSegs, hv, hver, hc, hsa, hkk]⟩
                  | some keyB =>
                      exact Or.inr ⟨⟨m, t, par, saltB.length, keyB.length⟩, saltB, keyB,
                        by simp [decodeSegs, hv, hver, hc, hsa, hkk]⟩
  · exact Or.inl ⟨.invalidHash, rfl⟩

/-- A segment list that is not exactly six segments long is rejected as an
invalid hash. -/
theorem decodeSegs_len_ne_six (l : List (List Char)) (h : l.length ≠ 6) :
    decodeSegs l = ⟨none, none, none, some .invalidHash⟩ := by
  rcases l with _ | ⟨a, _ | ⟨b, _ | ⟨v, _ | ⟨c, _ | ⟨sa, _ | ⟨k, _ | ⟨g, l⟩⟩⟩⟩⟩⟩⟩
  · rfl
  · rfl
  · rfl
  · rfl
  · rfl
  · rfl
  · simp at h
  · rfl

/-! ## Claim theorems -/

set_option maxRecDepth 8000

/-- C1: for every password P and parameter set Q, if the random source
succeeds then compare(P, hash(P, Q)) returns true (and no error): verifying
a password against the encoded hash just produced from that same password
succeeds.  The key-derivation function is abstract; the hypotheses state
that it honors the requested key length and produces bytes, both properties
of the real argon2.IDKey. -/
theorem compare_after_hash_true (kdf : KDF) (rs : RandomSource) (P : String) (q : Params)
    (salt : List Nat) (hrs : rs q.saltLength = some salt)
    (hsalt : ∀ b ∈ salt, b < 256)
    (hlen : ∀ pwd s t m par n, (kdf pwd s t m par n).length = n)
    (hbytes : ∀ pwd s t m par n, ∀ b ∈ kdf pwd s t m par n, b < 256) :
    ComparePasswordAndHash kdf P (hashWithParams kdf rs P q).1 = (true, none) := by
  have hout : hashWithParams kdf rs P q =
      (encodeHash q salt (kdf P salt q.iterations q.memory q.parallelism q.keyLength), none) := by
    simp only [hashWithParams, hrs]
  rw [hout]
  have hdec := decodeHash_encodeHash q salt
    (kdf P salt q.iterations q.memory q.parallelism q.keyLength) hsalt
    (hbytes P salt q.iterations q.memory q.parallelism q.keyLength)
  have hkl : (kdf P salt q.iterations q.memory q.parallelism q.keyLength).length = q.keyLength :=
    hlen P salt q.iterations q.memory q.parallelism q.keyLength
  rw [hkl] at hdec
  simp only [ComparePasswordAndHash, hdec, constantTimeCompare_self]
  rfl

/-- C1 witness: a concrete run with a length-honoring derivation double and
the mocked salt source verifies its own hash. -/
theorem compare_after_hash_true_witness :
    mockSaltSource defaultParams.saltLength = some mockedSaltBytes ∧
      ComparePasswordAndHash lengthKdf "pw"
        (hashWithParams lengthKdf mockSaltSource "pw" defaultParams).1 = (true, none) :=
  ⟨rfl,
    compare_after_hash_true lengthKdf mockSaltSource "pw" defaultParams mockedSaltBytes rfl
      (by decide) (fun _ _ _ _ _ n => by simp [lengthKdf])
      (fun _ _ _ _ _ n b hb => by
        have := List.eq_of_mem_replicate hb
        omega)⟩

/-- C2: with memory 65536, iterations 3, parallelism 2 and the fixed salt
whose unpadded base64 form is bW9ja2Vkc2FsdA (the bytes of mockedsalt),
hashing mysecretpassword produces exactly the pinned encoded string.  The
argon2id computation itself is external; the hypothesis pins its output on
this input to the known-vector key, whose base64 form the conclusion then
verifies inside the full encoded string. -/
theorem hash_known_vector (kdf : KDF) (rs : RandomSource)
    (hrs : rs defaultParams.saltLength = some mockedSaltBytes)
    (hkdf : kdf "mysecretpassword" mockedSaltBytes 3 65536 2 32 = knownVectorKey) :
    HashFromPassword kdf rs "mysecretpassword" =
      ("$argon2id$v=19$m=65536,t=3,p=2$bW9ja2Vkc2FsdA$4fziyesgS8X1eccXj3E5WacLsqUeX28HHqxprFZHlY8",
        none) := by
  simp only [HashFromPassword, hrs]
  show (encodeHash defaultParams mockedSaltBytes
    (kdf "mysecretpassword" mockedSaltBytes 3 65536 2 32), (none : Option CryptoErr)) = _
  rw [hkdf]
  decide

/-- C2 witness: the derivation double that returns the known-vector key and
the mocked salt source reproduce the pinned encoded string. -/
theorem hash_known_vector_witness :
    mockSaltSource defaultParams.saltLength = some mockedSaltBytes ∧
      vectorKdf "mysecretpassword" mockedSaltBytes 3 65536 2 32 = knownVectorKey ∧
      HashFromPassword vectorKdf mockSaltSource "mysecretpassword" =
        ("$argon2id$v=19$m=65536,t=3,p=2$bW9ja2Vkc2FsdA$4fziyesgS8X1eccXj3E5WacLsqUeX28HHqxprFZHlY8",
          none) :=
  ⟨rfl, rfl, hash_known_vector vectorKdf mockSaltSource rfl rfl⟩

/-- C3: for every parameter set Q, salt of length Q.saltLength and key of
length Q.keyLength (of genuine bytes), decoding the string produced by
encode(Q, salt, key) succeeds and returns Q's memory, iterations and
parallelism, the original salt and key bytes, and saltLength/keyLength
fields equal to the byte lengths of the decoded salt and key. -/
theorem decode_encode_roundtrip (q : Params) (salt key : List Nat)
    (hsl : salt.length = q.saltLength) (hkl : key.length = q.keyLength)
    (hs : ∀ b ∈ salt, b < 256) (hk : ∀ b ∈ key, b < 256) :
    decodeHash (encodeHash q salt key) =
      ⟨some ⟨q.memory, q.iterations, q.parallelism, salt.length, key.length⟩,
        some salt, some key, none⟩ ∧
      salt.length = q.saltLength ∧ key.length = q.keyLength :=
  ⟨decodeHash_encodeHash q salt key hs hk, hsl, hkl⟩

/-- C3 witness: a concrete non-default parameter set round-trips. -/
theorem decode_encode_roundtrip_witness :
    decodeHash (encodeHash ⟨1024, 2, 1, 2, 3⟩ [1, 2] [3, 4, 5]) =
      ⟨some ⟨1024, 2, 1, ([1, 2] : List Nat).length, ([3, 4, 5] : List Nat).length⟩,
        some [1, 2], some [3, 4, 5], none⟩ ∧
      ([1, 2] : List Nat).length = 2 ∧ ([3, 4, 5] : List Nat).length = 3 :=
  decode_encode_roundtrip ⟨1024, 2, 1, 2, 3⟩ [1, 2] [3, 4, 5] rfl rfl
    (by decide) (by decide)

/-- C4 (amended): decode fails with the invalid-hash error for every input
string that does not split on the dollar delimiter into exactly six
segments; the content of the first segment is not examined. -/
theorem decode_segment_count (s : String) (h : (splitOnDollar s.data).length ≠ 6) :
    decodeHash s = ⟨none, none, none, some CryptoErr.invalidHash⟩ :=
  decodeSegs_len_ne_six _ h

/-- C4 witness: the three-segment input of the test file is rejected as an
invalid hash. -/
theorem decode_segment_count_witness :
    (splitOnDollar ("a$b$c" : String).data).length ≠ 6 ∧
      decodeHash "a$b$c" = ⟨none, none, none, some CryptoErr.invalidHash⟩ :=
  ⟨by decide, decode_segment_count "a$b$c" (by decide)⟩

/-- C4 counterexample: decode does not require an empty first segment.  The
six-segment input of the test file whose first segment is the non-empty
dummy is not rejected with the invalid-hash format error: it passes the
structural check and reaches the version check, failing with the distinct
incompatible-version error. -/
theorem decode_first_segment_unchecked :
    decodeHash "dummy$dummy$v=20$m=1024,t=2,p=2$dGVzdA==$dGVzdA==" =
      ⟨none, none, none, some CryptoErr.incompatibleVersion⟩ ∧
      CryptoErr.incompatibleVersion ≠ CryptoErr.invalidHash := by decide

/-- C5: every six-segment input whose third segment parses to a version
other than 19 is rejected with the incompatible-version error, which is
distinguishable from the invalid-hash format error. -/
theorem decode_version_mismatch (s : String) (a t vSeg c sa k : List Char) (ver : Nat)
    (hsplit : splitOnDollar s.data = [a, t, vSeg, c, sa, k])
    (hv : parseVersion vSeg = some ver) (hne : ver ≠ 19) :
    decodeHash s = ⟨none, none, none, some CryptoErr.incompatibleVersion⟩ ∧
      CryptoErr.incompatibleVersion ≠ CryptoErr.invalidHash := by
  constructor
  · show decodeSegs (splitOnDollar s.data) = _
    rw [hsplit]
    simp [decodeSegs, hv, argon2Version, hne]
  · decide

/-- C5 witness: an input carrying v=20 is rejected as incompatible. -/
theorem decode_version_mismatch_witness :
    splitOnDollar ("a$b$v=20$d$e$f" : String).data =
      [['a'], ['b'], ['v', '=', '2', '0'], ['d'], ['e'], ['f']] ∧
      parseVersion ['v', '=', '2', '0'] = some 20 ∧ (20 : Nat) ≠ 19 ∧
      (decodeHash "a$b$v=20$d$e$f" =
          ⟨none, none, none, some CryptoErr.incompatibleVersion⟩ ∧
        CryptoErr.incompatibleVersion ≠ CryptoErr.invalidHash) :=
  ⟨by decide, by decide, by decide,
    decode_version_mismatch "a$b$v=20$d$e$f" ['a'] ['b'] ['v', '=', '2', '0']
      ['d'] ['e'] ['f'] 20 (by decide) (by decide) (by decide)⟩

/-- C6: the final equality check of the Verifier (the instrumented
subtle.ConstantTimeCompare used by ComparePasswordAndHash) executes a number
of loop steps equal to the common length of the two byte sequences, for
every pair of equal-length keys: its running time, modelled as the loop
iteration count, is independent of where the sequences first differ and of
their content. -/
theorem ct_compare_const_time (x y : List Nat) (h : x.length = y.length) :
    (constantTimeCompareInstr x y).2 = x.length := by
  rcases hl : ctLoop x y 0 with ⟨v, st⟩
  have hst : st = min x.length y.length := by
    have h2 := ctLoop_steps x y 0
    rw [hl] at h2
    exact h2
  simp only [constantTimeCompareInstr, if_pos h, hl]
  show st = x.length
  rw [hst, h, Nat.min_self]

/-- C6 witness: two equal-length keys differing at the first byte are
compared in exactly three steps, the shared length. -/
theorem ct_compare_const_time_witness :
    ([10, 20, 30] : List Nat).length = ([1, 2, 3] : List Nat).length ∧
      (constantTimeCompareInstr [10, 20, 30] [1, 2, 3]).2 =
        ([10, 20, 30] : List Nat).length :=
  ⟨rfl, ct_compare_const_time [10, 20, 30] [1, 2, 3] rfl⟩

/-- C7 (amended): the hash operation takes only the password; it is the
spec's two-argument hasher applied at the fixed default parameter set, and
on success the values embedded in the encoded output are those defaults —
callers cannot override them per call. -/
theorem hash_fixed_default_params (kdf : KDF) (rs : RandomSource) (P : String) :
    HashFromPassword kdf rs P = hashWithParams kdf rs P defaultParams ∧
      (∀ salt, rs defaultParams.saltLength = some salt →
        (HashFromPassword kdf rs P).1 =
          encodeHash defaultParams salt
            (kdf P salt defaultParams.iterations defaultParams.memory
              defaultParams.parallelism defaultParams.keyLength)) := by
  constructor
  · rfl
  · intro salt hrs
    simp only [HashFromPassword, hrs]

/-- C7 witness: a concrete run equals the spec hasher at the defaults and
embeds the default parameter set. -/
theorem hash_fixed_default_params_witness :
    HashFromPassword vectorKdf mockSaltSource "p" =
        hashWithParams vectorKdf mockSaltSource "p" defaultParams ∧
      (HashFromPassword vectorKdf mockSaltSource "p").1 =
        encodeHash defaultParams mockedSaltBytes
          (vectorKdf "p" mockedSaltBytes 3 65536 2 32) :=
  ⟨(hash_fixed_default_params vectorKdf mockSaltSource "p").1,
    (hash_fixed_default_params vectorKdf mockSaltSource "p").2 mockedSaltBytes rfl⟩

/-- C7 counterexample: the caller cannot override the parameter fields.  The
spec's two-argument hasher at an overridden parameter set (memory 1024,
iterations 2, parallelism 1) produces a different encoded string than the
program's hash operation on the same password, salt source and derivation
function: the program's single entry point takes no parameter-set argument
and always embeds the fixed defaults. -/
theorem hash_override_not_embedded :
    hashWithParams vectorKdf mockSaltSource "mysecretpassword" ⟨1024, 2, 1, 16, 32⟩ ≠
      HashFromPassword vectorKdf mockSaltSource "mysecretpassword" := by decide

/-- C8: the outcome of decode is independent of the content of the second
(algorithm-tag) segment: two inputs whose splits agree everywhere except in
that segment decode identically, so no input is rejected for a mismatched
algorithm tag. -/
theorem decode_ignores_algorithm_tag (s r : String) (a t u v c sa k : List Char)
    (hs : splitOnDollar s.data = [a, t, v, c, sa, k])
    (hr : splitOnDollar r.data = [a, u, v, c, sa, k]) :
    decodeHash s = decodeHash r := by
  show decodeSegs (splitOnDollar s.data) = decodeSegs (splitOnDollar r.data)
  rw [hs, hr]
  exact rfl

/-- C8 witness: two concrete inputs differing only in the algorithm tag
decode to the same result. -/
theorem decode_ignores_algorithm_tag_witness :
    splitOnDollar ("$x$v=19$m=1,t=1,p=1$$" : String).data =
        [[], ['x'], ['v', '=', '1', '9'],
          ['m', '=', '1', ',', 't', '=', '1', ',', 'p', '=', '1'], [], []] ∧
      splitOnDollar ("$y$v=19$m=1,t=1,p=1$$" : String).data =
        [[], ['y'], ['v', '=', '1', '9'],
          ['m', '=', '1', ',', 't', '=', '1', ',', 'p', '=', '1'], [], []] ∧
      decodeHash "$x$v=19$m=1,t=1,p=1$$" = decodeHash "$y$v=19$m=1,t=1,p=1$$" :=
  ⟨by decide, by decide,
    decode_ignores_algorithm_tag "$x$v=19$m=1,t=1,p=1$$" "$y$v=19$m=1,t=1,p=1$$"
      [] ['x'] ['y'] ['v', '=', '1', '9']
      ['m', '=', '1', ',', 't', '=', '1', ',', 'p', '=', '1'] [] []
      (by decide) (by decide)⟩

/-- C9: hash returns an error exactly when the random-byte generation of the
salt fails, returning the empty string in that case; on success no step
fails and the encoded hash is non-empty. -/
theorem hash_error_iff_random_failure (kdf : KDF) (rs : RandomSource) (P : String) :
    ((HashFromPassword kdf rs P).2 ≠ none ↔ rs defaultParams.saltLength = none) ∧
      (rs defaultParams.saltLength = none →
        HashFromPassword kdf rs P = ("", some CryptoErr.randomSource)) ∧
      (∀ salt, rs defaultParams.saltLength = some salt →
        (HashFromPassword kdf rs P).2 = none ∧ (HashFromPassword kdf rs P).1 ≠ "") := by
  cases hrs : rs defaultParams.saltLength with
  | none =>
      refine ⟨by simp [HashFromPassword, hrs], fun _ => by simp [HashFromPassword, hrs], ?_⟩
      intro salt hsalt
      exact absurd hsalt (by simp)
  | some salt =>
      refine ⟨by simp [HashFromPassword, hrs], ?_, ?_⟩
      · intro hnone
        exact absurd hnone (by simp)
      · intro salt2 hsalt
        injection hsalt with he
        subst he
        constructor
        · simp [HashFromPassword, hrs]
        · simp only [HashFromPassword, hrs]
          exact encodeHash_ne_empty _ _ _

/-- C9 witness: a failing source yields the empty string with the
random-source error; a succeeding source yields no error and a non-empty
encoded hash. -/
theorem hash_error_iff_random_failure_witness :
    HashFromPassword vectorKdf (fun _ => none) "p" = ("", some CryptoErr.randomSource) ∧
      (HashFromPassword vectorKdf mockSaltSource "p").2 = none ∧
      (HashFromPassword vectorKdf mockSaltSource "p").1 ≠ "" :=
  ⟨(hash_error_iff_random_failure vectorKdf (fun _ => none) "p").2.1 rfl,
    ((hash_error_iff_random_failure vectorKdf mockSaltSource "p").2.2 mockedSaltBytes rfl).1,
    ((hash_error_iff_random_failure vectorKdf mockSaltSource "p").2.2 mockedSaltBytes rfl).2⟩

/-- C10: whenever decode fails — wrong segment count, incompatible version,
unparsable sub-field, or malformed base64 — it returns no partial data: the
parameter set, salt and key results are all absent alongside the error. -/
theorem decode_failure_no_partial_data (s : String) (h : (decodeHash s).err ≠ none) :
    (decodeHash s).p = none ∧ (decodeHash s).salt = none ∧ (decodeHash s).key = none := by
  rcases decodeSegs_shape (splitOnDollar s.data) with ⟨e, he⟩ | ⟨q, sa, k, he⟩
  · have hd : decodeHash s = ⟨none, none, none, some e⟩ := he
    rw [hd]
    exact ⟨rfl, rfl, rfl⟩
  · have hd : decodeHash s = ⟨some q, some sa, some k, none⟩ := he
    rw [hd] at h
    simp at h

/-- C10 witness: a one-segment input fails and carries no partial data. -/
theorem decode_failure_no_partial_data_witness :
    (decodeHash "x").err ≠ none ∧
      ((decodeHash "x").p = none ∧ (decodeHash "x").salt = none ∧
        (decodeHash "x").key = none) :=
  ⟨by decide, decode_failure_no_partial_data "x" (by decide)⟩

end Platigo
